import Mathlib

/-!
Verification of the faceted variant filter/search engine of
`src/app/features/analysis/components/variant-list/variant-list.component.ts`.

The component's logic is shallowly embedded: TypeScript strings become `String`,
JavaScript `Map`/`Record` objects become association lists, optional fields
become `Option`, and the `hgvs` field (which can be absent, a string, or an
array of strings) becomes the inductive `HgvsField`.  JavaScript truthiness of
strings (`""` is falsy) is modelled explicitly wherever the source relies on it.
-/

set_option maxHeartbeats 1000000

namespace PSAnalyzer

/-- The `hgvs` field of a variant: absent, a single string, or an array of
strings (mirroring `string | string[] | undefined` in the source). -/
inductive HgvsField : Type where
  | nofield : HgvsField
  | str (s : String) : HgvsField
  | arr (l : List String) : HgvsField
deriving DecidableEq, Repr

/-- A genetic variant record (`Variant` in `analysis.model`), restricted to the
fields the component reads.  `polymorphism` holds companion records of the same
call in other patients; the source only ever reads their `patient` field but
declares them as full `Variant`s, so the type is recursive. -/
inductive Variant : Type where
  | mk
    (position : Nat)
    (ref : String)
    (alt : String)
    (type : String)
    (patient : String)
    (filter : Option String)
    (consequence : Option String)
    (hgvs : HgvsField)
    (polymorphism : Option (List Variant)) : Variant

/-- Accessor for `position`. -/
def Variant.position : Variant → Nat
  | .mk p _ _ _ _ _ _ _ _ => p

/-- Accessor for `ref`. -/
def Variant.ref : Variant → String
  | .mk _ r _ _ _ _ _ _ _ => r

/-- Accessor for `alt`. -/
def Variant.alt : Variant → String
  | .mk _ _ a _ _ _ _ _ _ => a

/-- Accessor for `type`. -/
def Variant.type : Variant → String
  | .mk _ _ _ t _ _ _ _ _ => t

/-- Accessor for `patient`. -/
def Variant.patient : Variant → String
  | .mk _ _ _ _ p _ _ _ _ => p

/-- Accessor for `filter` (the quality flag), `none` when the field is absent. -/
def Variant.filter : Variant → Option String
  | .mk _ _ _ _ _ f _ _ _ => f

/-- Accessor for `consequence`, `none` when the field is absent. -/
def Variant.consequence : Variant → Option String
  | .mk _ _ _ _ _ _ c _ _ => c

/-- Accessor for `hgvs`. -/
def Variant.hgvs : Variant → HgvsField
  | .mk _ _ _ _ _ _ _ h _ => h

/-- Accessor for `polymorphism`, `none` when the field is absent. -/
def Variant.polymorphism : Variant → Option (List Variant)
  | .mk _ _ _ _ _ _ _ _ q => q

/-- JavaScript truthiness of an optional string field: `undefined` and `""` are
falsy, every other string is truthy. -/
def jsTruthy : Option String → Bool
  | none => false
  | some s => s != ""

/-- JavaScript `s.toLowerCase()`, implemented structurally on the character
list (ASCII folding, as `Char.toLower`). -/
def jsToLower (s : String) : String :=
  ⟨s.data.map Char.toLower⟩

/-- JavaScript `s.trim()`: strip leading and trailing whitespace, implemented
structurally on the character list. -/
def jsTrim (s : String) : String :=
  ⟨((s.data.dropWhile Char.isWhitespace).reverse.dropWhile Char.isWhitespace).reverse⟩

/-- Lexicographic comparison of character lists (the order JS
`Array.prototype.sort` uses on strings). -/
def charListLe : List Char → List Char → Bool
  | [], _ => true
  | _ :: _, [] => false
  | a :: as, b :: bs => if a < b then true else if b < a then false else charListLe as bs

/-- Lexicographic `≤` on strings as a boolean, used as the sort comparator. -/
def strLeb (a b : String) : Bool :=
  charListLe a.data b.data

/-- Helper for `jsIncludes`: `pat` is a prefix of some suffix of the list. -/
def infixOfChars (pat : List Char) : List Char → Bool
  | [] => pat.isEmpty
  | c :: cs => pat.isPrefixOf (c :: cs) || infixOfChars pat cs

/-- JavaScript `s.includes(pat)`: `pat` occurs as a contiguous substring of
`s`. -/
def jsIncludes (s pat : String) : Bool :=
  infixOfChars pat.toList s.toList

/-- One entry of the `hgvsStates` map:
`{ loading: boolean, error: boolean, alternatives: string[] }`. -/
structure HgvsState : Type where
  loading : Bool
  error : Bool
  alternatives : List String
deriving DecidableEq, Repr

/-- The `hgvsStates` map (`Map<string, HgvsState>` in the source), modelled as
an association list with unique keys maintained by `aset`. -/
abbrev HgvsCache := List (String × HgvsState)

/-- Lookup `m.get(k)` on an association list: first entry with the given key. -/
def alookup {β : Type} (m : List (String × β)) (k : String) : Option β :=
  match m with
  | [] => none
  | (k', b) :: t => if k' = k then some b else alookup t k

/-- Update `m.set(k, b)` on an association list: replace the first entry with key `k`
in place, or append when absent (mirroring JS `Map.set` insertion order). -/
def aset {β : Type} (m : List (String × β)) (k : String) (b : β) : List (String × β) :=
  match m with
  | [] => [(k, b)]
  | (k', b') :: t => if k' = k then (k, b) :: t else (k', b') :: aset t k b

/-- Embedding of `getHgvsKey(v)` (source lines 491-502): the first entry of the *raw*
`hgvs` array when non-empty, the raw `hgvs` string when its trim is non-blank
(the outer `if (v.hgvs)` truthiness check is subsumed by the trim test), and
the decimal rendering of `position` otherwise. -/
def getHgvsKey (v : Variant) : String :=
  match v.hgvs with
  | .arr (h :: _) => h
  | .arr [] => toString v.position
  | .str s => if jsTrim s = "" then toString v.position else s
  | .nofield => toString v.position

/-- The raw `hgvs` field normalized to a sequence, as done by the tail of
`getHgvs` (lines 419-421): `[]` for an absent or falsy (empty-string) field,
the singleton for a string, the array itself for an array. -/
def rawHgvs (v : Variant) : List String :=
  match v.hgvs with
  | .nofield => []
  | .str s => if s = "" then [] else [s]
  | .arr l => l

/-- Embedding of `getHgvs(v)` (lines 411-422): cached alternatives when the cache entry for
`getHgvsKey v` exists with non-empty `alternatives`, else the raw field
normalized to a sequence. -/
def getHgvs (cache : HgvsCache) (v : Variant) : List String :=
  match alookup cache (getHgvsKey v) with
  | some st => if st.alternatives.length > 0 then st.alternatives else rawHgvs v
  | none => rawHgvs v

/-- JS `Set.add` on an insertion-ordered set modelled as a duplicate-free
list. -/
def setAdd (l : List String) (s : String) : List String :=
  if s ∈ l then l else l ++ [s]

/-- Embedding of `getInvolvedPatients(v)` (lines 478-485): the record's own patient plus
every companion's patient, deduplicated via a JS `Set` and then sorted
(`Array.from(patients).sort()`). -/
def getInvolvedPatients (v : Variant) : List String :=
  let base := ((v.polymorphism.getD []).map Variant.patient).foldl setAdd (setAdd [] v.patient)
  base.insertionSort (fun a b => strLeb a b = true)

/-- The search-stage predicate (the lambda at lines 179-189, inlined again at
lines 279-287): any of the four case-folded projections contains the query. -/
def searchMatches (cache : HgvsCache) (search : String) (v : Variant) : Bool :=
  let mutation := jsToLower (v.ref ++ toString v.position ++ v.alt)
  let posStr := toString v.position
  let involvedPatients := (getInvolvedPatients v).map jsToLower
  let hgvs := (getHgvs cache v).map jsToLower
  jsIncludes mutation search || jsIncludes posStr search ||
    involvedPatients.any (fun p => jsIncludes p search) ||
    hgvs.any (fun h => jsIncludes h search)

/-- The component's live filter signals. -/
structure FilterState : Type where
  searchTerm : String
  filterType : String
  filterPatient : String
  filterQuality : String
  filterConsequence : String
deriving DecidableEq, Repr

/-- The optional per-call facet overrides accepted by `applyFilters`. -/
structure Overrides : Type where
  type : Option String
  patient : Option String
  quality : Option String
  consequence : Option String
deriving DecidableEq, Repr

/-- The empty override object `{}`. -/
def Overrides.noov : Overrides := ⟨none, none, none, none⟩

/-- The quality-stage keep predicate (lines 150-153):
`if (!v.filter) return true; return v.filter === qualityFilter;`. -/
def qualityKeep (q : String) (v : Variant) : Bool :=
  match v.filter with
  | none => true
  | some s => if s = "" then true else s == q

/-- The type-stage keep predicate (line 158), on the already-lowercased
effective type selection. -/
def typeKeep (tLower : String) (v : Variant) : Bool :=
  jsToLower v.type == tLower

/-- The patient-stage keep predicate (lines 163-169): own patient matches or
some companion's patient matches. -/
def patientKeep (p : String) (v : Variant) : Bool :=
  if v.patient == p then true
  else
    match v.polymorphism with
    | some l => l.any (fun c => c.patient == p)
    | none => false

/-- The consequence-stage keep predicate (line 174):
`v.consequence === consequenceFilter`. -/
def consequenceKeep (c : String) (v : Variant) : Bool :=
  v.consequence == some c

/-- Quality stage of `applyFilters` (lines 149-154). -/
def qualityStage (q : String) (l : List Variant) : List Variant :=
  if q ≠ "All" then l.filter (qualityKeep q) else l

/-- Type stage of `applyFilters` (lines 157-159); `tLower` is the lowercased
effective selection. -/
def typeStage (tLower : String) (l : List Variant) : List Variant :=
  if tLower ≠ "all" then l.filter (typeKeep tLower) else l

/-- Patient stage of `applyFilters` (lines 162-170). -/
def patientStage (p : String) (l : List Variant) : List Variant :=
  if p ≠ "All" then l.filter (patientKeep p) else l

/-- Consequence stage of `applyFilters` (lines 173-175). -/
def consequenceStage (c : String) (l : List Variant) : List Variant :=
  if c ≠ "All" then l.filter (consequenceKeep c) else l

/-- Search stage of `applyFilters` (lines 178-190); `search` is the
lowercased, trimmed query (empty string is falsy, skipping the stage). -/
def searchStage (cache : HgvsCache) (search : String) (l : List Variant) : List Variant :=
  if search ≠ "" then l.filter (searchMatches cache search) else l

/-- Embedding of `applyFilters(overrides)` (lines 140-193): effective selections are the
overrides when present, else the live signals; stages apply in source order
quality → type → patient → consequence → search. -/
def applyFilters (cache : HgvsCache) (variants : List Variant) (st : FilterState)
    (ov : Overrides) : List Variant :=
  let search := jsTrim (jsToLower st.searchTerm)
  let typeFilter := jsToLower (ov.type.getD st.filterType)
  let patientFilter := ov.patient.getD st.filterPatient
  let qualityFilter := ov.quality.getD st.filterQuality
  let consequenceFilter := ov.consequence.getD st.filterConsequence
  searchStage cache search
    (consequenceStage consequenceFilter
      (patientStage patientFilter
        (typeStage typeFilter
          (qualityStage qualityFilter variants))))

/-! ### Facet counters (lines 202-249)

JS `Record<string, number>` objects are modelled as association lists of
`String × Nat`; `rincr` is `counts[k] = (counts[k] ?? 0) + 1`. -/

/-- Increment `counts[k] = (counts[k] ?? 0) + 1` on a count record. -/
def rincr (m : List (String × Nat)) (k : String) : List (String × Nat) :=
  aset m k ((alookup m k).getD 0 + 1)

/-- Sum of all values of a count record. -/
def rsum (m : List (String × Nat)) : Nat :=
  (m.map Prod.snd).sum

/-- Sum of the values of all entries other than the `'All'` pseudo-value. -/
def rsumConcrete (m : List (String × Nat)) : Nat :=
  ((m.filter (fun e => e.1 ≠ "All")).map Prod.snd).sum

/-- The base set for `typeCounts`: `applyFilters({ type: 'All' })`. -/
def typeBase (cache : HgvsCache) (vs : List Variant) (st : FilterState) : List Variant :=
  applyFilters cache vs st ⟨some "All", none, none, none⟩

/-- The base set for `qualityCounts`: `applyFilters({ quality: 'All' })`. -/
def qualityBase (cache : HgvsCache) (vs : List Variant) (st : FilterState) : List Variant :=
  applyFilters cache vs st ⟨none, none, some "All", none⟩

/-- The base set for `patientCounts`: `applyFilters({ patient: 'All' })`. -/
def patientBase (cache : HgvsCache) (vs : List Variant) (st : FilterState) : List Variant :=
  applyFilters cache vs st ⟨none, some "All", none, none⟩

/-- The base set for `consequenceCounts`: `applyFilters({ consequence: 'All' })`. -/
def consequenceBase (cache : HgvsCache) (vs : List Variant) (st : FilterState) : List Variant :=
  applyFilters cache vs st ⟨none, none, none, some "All"⟩

/-- Embedding of `typeCounts` (lines 202-210): one increment per base record at its type,
then `counts['All'] = baseFiltered.length`. -/
def typeCounts (cache : HgvsCache) (vs : List Variant) (st : FilterState) :
    List (String × Nat) :=
  let baseFiltered := typeBase cache vs st
  aset (baseFiltered.foldl (fun m v => rincr m v.type) []) "All" baseFiltered.length

/-- The bucket key used by `qualityCounts`: `v.filter || 'N/A'` (JS `||`:
an absent or empty-string flag falls back to `'N/A'`). -/
def qualityKeyOf (v : Variant) : String :=
  match v.filter with
  | none => "N/A"
  | some s => if s = "" then "N/A" else s

/-- Embedding of `qualityCounts` (lines 213-222). -/
def qualityCounts (cache : HgvsCache) (vs : List Variant) (st : FilterState) :
    List (String × Nat) :=
  let baseFiltered := qualityBase cache vs st
  aset (baseFiltered.foldl (fun m v => rincr m (qualityKeyOf v)) []) "All" baseFiltered.length

/-- Embedding of `patientCounts` (lines 225-236): each base record increments every one of
its involved patients. -/
def patientCounts (cache : HgvsCache) (vs : List Variant) (st : FilterState) :
    List (String × Nat) :=
  let baseFiltered := patientBase cache vs st
  aset
    (baseFiltered.foldl
      (fun m v => (getInvolvedPatients v).foldl (fun m' p => rincr m' p) m) [])
    "All" baseFiltered.length

/-- Embedding of `consequenceCounts` (lines 239-249): only records with a truthy
`consequence` are counted. -/
def consequenceCounts (cache : HgvsCache) (vs : List Variant) (st : FilterState) :
    List (String × Nat) :=
  let baseFiltered := consequenceBase cache vs st
  aset
    (baseFiltered.foldl
      (fun m v =>
        match v.consequence with
        | some c => if c = "" then m else rincr m c
        | none => m) [])
    "All" baseFiltered.length

/-! ### Visibility reconciliation (`ensureVariantVisible`, lines 275-321) -/

/-- The search conflict check (lines 277-293): a non-empty normalized query
that the record does not match.  The source inlines the same four-projection
predicate as the search stage, so `searchMatches` is reused verbatim. -/
def searchConflict (cache : HgvsCache) (st : FilterState) (v : Variant) : Bool :=
  let search := jsTrim (jsToLower st.searchTerm)
  search != "" && !(searchMatches cache search v)

/-- The type conflict check (line 295): selection differs from the literal
`'All'` and does not match the record's type case-insensitively. -/
def typeConflict (st : FilterState) (v : Variant) : Bool :=
  st.filterType != "All" && jsToLower st.filterType != jsToLower v.type

/-- The patient conflict check (lines 300-306): selection differs from `'All'`
and is not among the record's involved patients. -/
def patientConflict (st : FilterState) (v : Variant) : Bool :=
  st.filterPatient != "All" && !((getInvolvedPatients v).contains st.filterPatient)

/-- The quality conflict check (lines 308-313): selection differs from `'All'`
and the record has a truthy flag different from it. -/
def qualityConflict (st : FilterState) (v : Variant) : Bool :=
  st.filterQuality != "All" &&
    (match v.filter with
     | none => false
     | some f => f != "" && f != st.filterQuality)

/-- The consequence conflict check (lines 315-318). -/
def consequenceConflict (st : FilterState) (v : Variant) : Bool :=
  st.filterConsequence != "All" && v.consequence != some st.filterConsequence

/-- Embedding of `ensureVariantVisible(v)` (lines 275-321): each conflicting dimension is
reset to its neutral value, the others are untouched; returns the updated
state and the `needsUpdate` flag. -/
def ensureVariantVisible (cache : HgvsCache) (st : FilterState) (v : Variant) :
    FilterState × Bool :=
  let s := searchConflict cache st v
  let t := typeConflict st v
  let p := patientConflict st v
  let q := qualityConflict st v
  let c := consequenceConflict st v
  (⟨if s then "" else st.searchTerm,
    if t then "All" else st.filterType,
    if p then "All" else st.filterPatient,
    if q then "All" else st.filterQuality,
    if c then "All" else st.filterConsequence⟩,
   s || t || p || q || c)

/-! ### Annotation fetch state machine (`fetchHgvsAlternatives`, lines 352-409)

The two awaited collaborator calls (`getHgvsAlternatives`, the lookup, and
`addJobHgvsAlternatives`, the persistence) are modelled by `Except`-valued
oracles supplied as arguments; the function returns the cache as it stands at
the synchronous point just before the lookup is issued (`preCache`), the cache
after the whole async flow settles (`finalCache`), and the lookup request that
was issued, if any. -/

/-- JS `s.split(c)` for a single-character separator, on the char list. -/
def jsSplitCharAux (c : Char) : List Char → List Char → List String
  | [], acc => [String.mk acc.reverse]
  | x :: xs, acc =>
    if x = c then String.mk acc.reverse :: jsSplitCharAux c xs []
    else jsSplitCharAux c xs (x :: acc)

/-- JS `s.split(c)` for a single-character separator. -/
def jsSplitChar (c : Char) (s : String) : List String :=
  jsSplitCharAux c s.toList []

/-- Result of one `fetchHgvsAlternatives` invocation. -/
structure FetchResult : Type where
  preCache : HgvsCache
  finalCache : HgvsCache
  issued : Option (String × Nat × String × String)
deriving Repr

/-- Embedding of `fetchHgvsAlternatives(v)` (lines 352-409).  Guards: no-op when the
resolved sequence has more than one entry, is empty, or the primary splits
into fewer than two parts on `':'`.  Otherwise the entry is set to the pending
state before the lookup; on lookup failure the catch sets the error state; on
lookup success the success state is applied and, when a job id is present, the
persistence call runs inside the same `try`, so a persistence failure also
lands in the catch and overwrites the entry with the error state. -/
def fetchHgvsAlternatives (cache : HgvsCache) (v : Variant) (jobId : Option String)
    (lookupRes : Except Unit (List String)) (persistRes : Except Unit Unit) :
    FetchResult :=
  let key := getHgvsKey v
  let currentHgvs := getHgvs cache v
  if currentHgvs.length > 1 then ⟨cache, cache, none⟩
  else if currentHgvs.length = 0 then ⟨cache, cache, none⟩
  else
    let primary := currentHgvs.headD ""
    let parts := jsSplitChar ':' primary
    if parts.length < 2 then ⟨cache, cache, none⟩
    else
      let transcript := parts.headD ""
      let req := some (transcript, v.position, v.ref, v.alt)
      let pre := aset cache key ⟨true, false, []⟩
      match lookupRes with
      | .error _ => ⟨pre, aset pre key ⟨false, true, []⟩, req⟩
      | .ok alternatives =>
        let succ := aset pre key ⟨false, false, alternatives⟩
        match jobId with
        | none => ⟨pre, succ, req⟩
        | some _ =>
          match persistRes with
          | .ok _ => ⟨pre, succ, req⟩
          | .error _ => ⟨pre, aset succ key ⟨false, true, []⟩, req⟩

/-! ### Session model for the cache (constructor effect, lines 61-80) -/

/-- The constructor effect's seeding of `hgvsStates` from the
`hgvsAlternatives` input: every persisted entry becomes a settled cache
entry. -/
def seedCache (inputAlts : List (String × List String)) : HgvsCache :=
  inputAlts.foldl (fun m e => aset m e.1 ⟨false, false, e.2⟩) []

/-- The only operation of a view session that writes `hgvsStates` after
seeding: an annotation fetch, with its collaborator outcomes. -/
inductive SessionOp : Type where
  | fetch (v : Variant) (jobId : Option String)
      (lookupRes : Except Unit (List String)) (persistRes : Except Unit Unit) : SessionOp

/-- The cache key an operation targets. -/
def SessionOp.key : SessionOp → String
  | .fetch v _ _ _ => getHgvsKey v

/-- Applying one session operation to the cache. -/
def stepCache (c : HgvsCache) : SessionOp → HgvsCache
  | .fetch v j lr pr => (fetchHgvsAlternatives c v j lr pr).finalCache

/-- A whole session: seed once from the persisted alternatives, then run the
fetch operations in order. -/
def runSession (inputAlts : List (String × List String)) (ops : List SessionOp) : HgvsCache :=
  ops.foldl stepCache (seedCache inputAlts)

/-! ### Association-list lemmas -/

/-- The keys of an association list. -/
def akeys {β : Type} (m : List (String × β)) : List String :=
  m.map Prod.fst

theorem alookup_aset {β : Type} (m : List (String × β)) (k k' : String) (b : β) :
    alookup (aset m k b) k' = if k = k' then some b else alookup m k' := by
  induction m with
  | nil =>
    simp only [aset, alookup]
  | cons e t ih =>
    obtain ⟨ke, be⟩ := e
    by_cases hk : ke = k
    · subst hk
      by_cases hk' : ke = k'
      · subst hk'
        simp [aset, alookup]
      · simp [aset, alookup, hk']
    · by_cases hk' : ke = k'
      · subst hk'
        simp only [aset, if_neg hk, alookup, if_pos rfl]
        have : ¬ k = ke := fun h => hk h.symm
        simp [this]
      · simp [aset, alookup, hk, hk', ih]

theorem mem_akeys_aset {β : Type} (m : List (String × β)) (k k' : String) (b : β) :
    k' ∈ akeys (aset m k b) ↔ k' = k ∨ k' ∈ akeys m := by
  induction m with
  | nil => simp [aset, akeys]
  | cons e t ih =>
    obtain ⟨ke, be⟩ := e
    simp only [aset]
    split
    · next hk =>
      subst hk
      simp only [akeys, List.map_cons, List.mem_cons]
      tauto
    · next hk =>
      simp only [akeys, List.map_cons, List.mem_cons] at ih ⊢
      rw [ih]
      tauto

theorem aset_eq_append {β : Type} (m : List (String × β)) (k : String) (b : β)
    (h : k ∉ akeys m) : aset m k b = m ++ [(k, b)] := by
  induction m with
  | nil => simp [aset]
  | cons e t ih =>
    obtain ⟨ke, be⟩ := e
    simp only [akeys, List.map_cons, List.mem_cons] at h
    push_neg at h
    have hne : ke ≠ k := fun hh => h.1 hh.symm
    simp only [aset, if_neg hne, List.cons_append, List.cons.injEq, true_and]
    exact ih h.2

/-! ### Count-record lemmas -/

theorem alookup_getD_le_rsum (m : List (String × Nat)) (k : String) :
    (alookup m k).getD 0 ≤ rsum m := by
  induction m with
  | nil => simp [alookup, rsum]
  | cons e t ih =>
    obtain ⟨ke, be⟩ := e
    simp only [alookup, rsum, List.map_cons, List.sum_cons]
    split
    · simp only [Option.getD_some]
      omega
    · simp only [rsum] at ih
      omega

theorem rsum_aset_mem (m : List (String × Nat)) (k : String) (n : Nat) :
    rsum (aset m k n) = rsum m - (alookup m k).getD 0 + n := by
  induction m with
  | nil => simp [aset, rsum, alookup]
  | cons e t ih =>
    obtain ⟨ke, be⟩ := e
    simp only [aset, alookup]
    split
    · simp only [rsum, List.map_cons, List.sum_cons, Option.getD_some]
      omega
    · simp only [rsum, List.map_cons, List.sum_cons] at ih ⊢
      have hle := alookup_getD_le_rsum t k
      simp only [rsum] at hle
      omega

theorem rsum_rincr (m : List (String × Nat)) (k : String) :
    rsum (rincr m k) = rsum m + 1 := by
  unfold rincr
  rw [rsum_aset_mem]
  have hle := alookup_getD_le_rsum m k
  omega

theorem mem_akeys_rincr (m : List (String × Nat)) (k k' : String) :
    k' ∈ akeys (rincr m k) ↔ k' = k ∨ k' ∈ akeys m :=
  mem_akeys_aset m k k' _

theorem rsumConcrete_aset_all (m : List (String × Nat)) (n : Nat)
    (h : "All" ∉ akeys m) : rsumConcrete (aset m "All" n) = rsum m := by
  rw [aset_eq_append m "All" n h]
  unfold rsumConcrete
  rw [List.filter_append]
  have h1 : List.filter (fun e => decide (e.1 ≠ "All")) m = m := by
    apply List.filter_eq_self.mpr
    intro e he
    have : e.1 ≠ "All" := by
      intro hh
      exact h (by simpa [akeys, hh] using List.mem_map_of_mem Prod.fst he)
    simpa using this
  have h2 : List.filter (fun e => decide (e.1 ≠ "All")) [((("All" : String)), n)] = [] := by
    simp
  rw [h1, h2, List.append_nil]
  rfl

theorem rsum_foldl_rincr {α : Type} (f : α → String) (l : List α)
    (m0 : List (String × Nat)) :
    rsum (l.foldl (fun m v => rincr m (f v)) m0) = rsum m0 + l.length := by
  induction l generalizing m0 with
  | nil => simp
  | cons v t ih =>
    simp only [List.foldl_cons, List.length_cons]
    rw [ih, rsum_rincr]
    omega

theorem rsum_foldl_patient (g : Variant → List String) (l : List Variant)
    (m0 : List (String × Nat)) :
    rsum (l.foldl (fun m v => (g v).foldl (fun m' p => rincr m' p) m) m0)
      = rsum m0 + (l.map (fun v => (g v).length)).sum := by
  induction l generalizing m0 with
  | nil => simp
  | cons v t ih =>
    simp only [List.foldl_cons, List.map_cons, List.sum_cons]
    rw [ih]
    have := rsum_foldl_rincr (fun p => p) (g v) m0
    simp only [this]
    omega

theorem rsum_foldl_consequence (l : List Variant) (m0 : List (String × Nat)) :
    rsum (l.foldl
        (fun m v =>
          match v.consequence with
          | some c => if c = "" then m else rincr m c
          | none => m) m0)
      = rsum m0 + (l.filter (fun v => jsTruthy v.consequence)).length := by
  induction l generalizing m0 with
  | nil => simp
  | cons v t ih =>
    simp only [List.foldl_cons, List.filter_cons]
    rcases hv : v.consequence with _ | c
    · rw [show (match (none : Option String) with
          | some c => if c = "" then m0 else rincr m0 c
          | none => m0) = m0 from rfl, ih]
      simp [jsTruthy]
    · by_cases hc : c = ""
      · subst hc
        rw [show (match (some "" : Option String) with
            | some c => if c = "" then m0 else rincr m0 c
            | none => m0) = m0 from by simp, ih]
        simp [jsTruthy]
      · rw [show (match (some c : Option String) with
            | some c => if c = "" then m0 else rincr m0 c
            | none => m0) = if c = "" then m0 else rincr m0 c from rfl,
          if_neg hc, ih, rsum_rincr]
        have hj : jsTruthy (some c) = true := by simp [jsTruthy, hc]
        rw [hj]
        simp only [if_true, List.length_cons]
        omega

theorem mem_akeys_foldl_rincr {α : Type} (f : α → String) (l : List α)
    (m0 : List (String × Nat)) (k : String)
    (h : k ∈ akeys (l.foldl (fun m v => rincr m (f v)) m0)) :
    k ∈ akeys m0 ∨ ∃ v ∈ l, f v = k := by
  induction l generalizing m0 with
  | nil => exact Or.inl h
  | cons v t ih =>
    simp only [List.foldl_cons] at h
    rcases ih _ h with h1 | h1
    · rcases (mem_akeys_rincr m0 (f v) k).mp h1 with h2 | h2
      · exact Or.inr ⟨v, List.mem_cons_self v t, h2.symm⟩
      · exact Or.inl h2
    · obtain ⟨w, hw, hfw⟩ := h1
      exact Or.inr ⟨w, List.mem_cons_of_mem v hw, hfw⟩

theorem mem_akeys_foldl_patient (g : Variant → List String) (l : List Variant)
    (m0 : List (String × Nat)) (k : String)
    (h : k ∈ akeys (l.foldl (fun m v => (g v).foldl (fun m' p => rincr m' p) m) m0)) :
    k ∈ akeys m0 ∨ ∃ v ∈ l, k ∈ g v := by
  induction l generalizing m0 with
  | nil => exact Or.inl h
  | cons v t ih =>
    simp only [List.foldl_cons] at h
    rcases ih _ h with h1 | h1
    · rcases mem_akeys_foldl_rincr (fun p => p) (g v) m0 k h1 with h2 | h2
      · exact Or.inl h2
      · obtain ⟨p, hp, hpk⟩ := h2
        exact Or.inr ⟨v, List.mem_cons_self v t, hpk ▸ hp⟩
    · obtain ⟨w, hw, hk⟩ := h1
      exact Or.inr ⟨w, List.mem_cons_of_mem v hw, hk⟩

theorem mem_akeys_foldl_consequence (l : List Variant) (m0 : List (String × Nat))
    (k : String)
    (h : k ∈ akeys (l.foldl
        (fun m v =>
          match v.consequence with
          | some c => if c = "" then m else rincr m c
          | none => m) m0)) :
    k ∈ akeys m0 ∨ ∃ v ∈ l, v.consequence = some k := by
  induction l generalizing m0 with
  | nil => exact Or.inl h
  | cons v t ih =>
    simp only [List.foldl_cons] at h
    rcases ih _ h with h1 | h1
    · rcases hv : v.consequence with _ | c
      · rw [hv] at h1
        exact Or.inl h1
      · rw [hv] at h1
        have h1' : k ∈ akeys (if c = "" then m0 else rincr m0 c) := h1
        by_cases hc : c = ""
        · rw [if_pos hc] at h1'
          exact Or.inl h1'
        · rw [if_neg hc] at h1'
          rcases (mem_akeys_rincr m0 c k).mp h1' with h2 | h2
          · exact Or.inr ⟨v, List.mem_cons_self v t, by rw [hv, h2]⟩
          · exact Or.inl h2
    · obtain ⟨w, hw, hk⟩ := h1
      exact Or.inr ⟨w, List.mem_cons_of_mem v hw, hk⟩

/-! ### The sort comparator agrees with the canonical string order -/

theorem charListLe_iff (as bs : List Char) :
    charListLe as bs = true ↔ ¬ List.Lex (· < ·) bs as := by
  induction as generalizing bs with
  | nil =>
    simp only [charListLe]
    constructor
    · intro _ h
      cases h
    · intro _
      trivial
  | cons a as' ih =>
    cases bs with
    | nil =>
      simp only [charListLe]
      constructor
      · intro h
        exact (Bool.false_ne_true h).elim
      · intro h
        exact absurd List.Lex.nil h
    | cons b bs' =>
      simp only [charListLe]
      rcases lt_trichotomy a b with hab | hab | hab
      · rw [if_pos hab]
        simp only [true_iff]
        intro h
        cases h with
        | cons h' => exact lt_irrefl _ hab
        | rel h' => exact lt_asymm hab h'
      · subst hab
        rw [if_neg (lt_irrefl a), if_neg (lt_irrefl a), ih]
        rw [List.Lex.cons_iff]
      · rw [if_neg (asymm hab), if_pos hab]
        constructor
        · intro h
          exact (Bool.false_ne_true h).elim
        · intro h
          exact absurd (List.Lex.rel hab) h

theorem strLeb_iff (a b : String) : strLeb a b = true ↔ a ≤ b := by
  rw [String.le_iff_toList_le]
  show charListLe a.data b.data = true ↔ a.toList ≤ b.toList
  rw [charListLe_iff]
  constructor
  · intro h
    exact le_of_not_lt h
  · intro h hlex
    exact not_le_of_lt hlex h

instance strLebIsTotal : IsTotal String (fun a b => strLeb a b = true) :=
  ⟨fun a b => by
    rcases le_total a b with h | h
    · exact Or.inl ((strLeb_iff a b).mpr h)
    · exact Or.inr ((strLeb_iff b a).mpr h)⟩

instance strLebIsTrans : IsTrans String (fun a b => strLeb a b = true) :=
  ⟨fun a b c hab hbc =>
    (strLeb_iff a c).mpr (le_trans ((strLeb_iff a b).mp hab) ((strLeb_iff b c).mp hbc))⟩

/-! ### Involved-patients lemmas -/

theorem mem_setAdd (l : List String) (a p : String) :
    p ∈ setAdd l a ↔ p ∈ l ∨ p = a := by
  unfold setAdd
  split
  · next h =>
    constructor
    · exact fun hp => Or.inl hp
    · rintro (hp | rfl)
      · exact hp
      · exact h
  · simp

theorem nodup_setAdd (l : List String) (a : String) (h : l.Nodup) :
    (setAdd l a).Nodup := by
  unfold setAdd
  split
  · exact h
  · next ha => simpa [List.nodup_append] using ⟨h, ha⟩

theorem mem_foldl_setAdd (l : List String) (init : List String) (p : String) :
    p ∈ l.foldl setAdd init ↔ p ∈ init ∨ p ∈ l := by
  induction l generalizing init with
  | nil => simp
  | cons a t ih =>
    simp only [List.foldl_cons, ih, mem_setAdd, List.mem_cons]
    tauto

theorem nodup_foldl_setAdd (l : List String) (init : List String) (h : init.Nodup) :
    (l.foldl setAdd init).Nodup := by
  induction l generalizing init with
  | nil => exact h
  | cons a t ih => exact ih _ (nodup_setAdd init a h)

theorem mem_getInvolvedPatients (v : Variant) (p : String) :
    p ∈ getInvolvedPatients v ↔
      p = v.patient ∨ ∃ c ∈ v.polymorphism.getD [], c.patient = p := by
  unfold getInvolvedPatients
  rw [(List.perm_insertionSort (fun a b => strLeb a b = true) _).mem_iff, mem_foldl_setAdd]
  simp only [mem_setAdd, List.not_mem_nil, false_or, List.mem_map]

theorem getInvolvedPatients_nodup (v : Variant) : (getInvolvedPatients v).Nodup := by
  unfold getInvolvedPatients
  exact (List.perm_insertionSort (fun a b => strLeb a b = true) _).nodup_iff.mpr
    (nodup_foldl_setAdd _ _ (nodup_setAdd [] v.patient (List.nodup_nil)))

theorem getInvolvedPatients_sorted (v : Variant) :
    (getInvolvedPatients v).Sorted (· ≤ ·) := by
  unfold getInvolvedPatients
  exact (List.sorted_insertionSort (fun a b => strLeb a b = true) _).imp
    (fun h => (strLeb_iff _ _).mp h)

theorem getInvolvedPatients_length_pos (v : Variant) :
    1 ≤ (getInvolvedPatients v).length := by
  have hm : v.patient ∈ getInvolvedPatients v :=
    (mem_getInvolvedPatients v v.patient).mpr (Or.inl rfl)
  exact List.length_pos.mpr (List.ne_nil_of_mem hm)

theorem patientKeep_iff (p : String) (v : Variant) :
    patientKeep p v = true ↔
      p = v.patient ∨ ∃ c ∈ v.polymorphism.getD [], c.patient = p := by
  unfold patientKeep
  split
  · next h =>
    simp only [true_iff]
    exact Or.inl (eq_of_beq h).symm
  · next h =>
    have hne : ¬ p = v.patient := fun he => by simp [he.symm] at h
    rcases hq : v.polymorphism with _ | l
    · simp [hq, hne]
    · simp only [hq, Option.getD_some, List.any_eq_true, beq_iff_eq]
      constructor
      · rintro ⟨c, hc, rfl⟩
        exact Or.inr ⟨c, hc, rfl⟩
      · rintro (rfl | ⟨c, hc, rfl⟩)
        · exact absurd rfl hne
        · exact ⟨c, hc, rfl⟩

theorem contains_getInvolvedPatients (v : Variant) (p : String) :
    (getInvolvedPatients v).contains p = patientKeep p v := by
  rcases hk : patientKeep p v
  · rcases hc : (getInvolvedPatients v).contains p
    · rfl
    · exfalso
      have hmem : p ∈ getInvolvedPatients v := List.mem_of_elem_eq_true hc
      have := (patientKeep_iff p v).mpr ((mem_getInvolvedPatients v p).mp hmem)
      rw [hk] at this
      exact Bool.false_ne_true this
  · have hmem : p ∈ getInvolvedPatients v :=
      (mem_getInvolvedPatients v p).mpr ((patientKeep_iff p v).mp hk)
    exact List.elem_eq_true_of_mem hmem

/-! ### Stage sublist lemmas -/

theorem qualityStage_sublist (q : String) (l : List Variant) :
    (qualityStage q l).Sublist l := by
  unfold qualityStage
  split
  · exact List.filter_sublist l
  · exact List.Sublist.refl l

theorem typeStage_sublist (t : String) (l : List Variant) :
    (typeStage t l).Sublist l := by
  unfold typeStage
  split
  · exact List.filter_sublist l
  · exact List.Sublist.refl l

theorem patientStage_sublist (p : String) (l : List Variant) :
    (patientStage p l).Sublist l := by
  unfold patientStage
  split
  · exact List.filter_sublist l
  · exact List.Sublist.refl l

theorem consequenceStage_sublist (c : String) (l : List Variant) :
    (consequenceStage c l).Sublist l := by
  unfold consequenceStage
  split
  · exact List.filter_sublist l
  · exact List.Sublist.refl l

theorem searchStage_sublist (cache : HgvsCache) (s : String) (l : List Variant) :
    (searchStage cache s l).Sublist l := by
  unfold searchStage
  split
  · exact List.filter_sublist l
  · exact List.Sublist.refl l

theorem applyFilters_sublist (cache : HgvsCache) (vs : List Variant) (st : FilterState)
    (ov : Overrides) : (applyFilters cache vs st ov).Sublist vs := by
  unfold applyFilters
  exact ((searchStage_sublist _ _ _).trans
    ((consequenceStage_sublist _ _).trans
      ((patientStage_sublist _ _).trans
        ((typeStage_sublist _ _).trans (qualityStage_sublist _ _)))))

/-! ### Claim C1: leave-one-out facet counts -/

/-- C1 (amended).  For the type and quality dimensions the per-value facet
counts, summed over all concrete facet values, equal the length of the
leave-one-out base list (`applyFilters` with that dimension overridden to
`'All'`), provided no base record carries the literal facet value `'All'`
(which the `'All'` pseudo-entry would clobber).  The patient counts do *not*
partition the base set: their concrete sum equals the total number of
(record, involved patient) pairs, which is at least the base length.  The
consequence counts do not partition it either: their concrete sum equals the
number of base records with a truthy consequence, which is at most the base
length. -/
theorem facetCounts_leave_one_out (cache : HgvsCache) (vs : List Variant) (st : FilterState)
    (hT : ∀ v ∈ typeBase cache vs st, v.type ≠ "All")
    (hQ : ∀ v ∈ qualityBase cache vs st, qualityKeyOf v ≠ "All")
    (hP : ∀ v ∈ patientBase cache vs st, "All" ∉ getInvolvedPatients v)
    (hC : ∀ v ∈ consequenceBase cache vs st, v.consequence ≠ some "All") :
    rsumConcrete (typeCounts cache vs st) = (typeBase cache vs st).length ∧
    rsumConcrete (qualityCounts cache vs st) = (qualityBase cache vs st).length ∧
    rsumConcrete (patientCounts cache vs st)
      = ((patientBase cache vs st).map (fun v => (getInvolvedPatients v).length)).sum ∧
    (patientBase cache vs st).length
      ≤ ((patientBase cache vs st).map (fun v => (getInvolvedPatients v).length)).sum ∧
    rsumConcrete (consequenceCounts cache vs st)
      = ((consequenceBase cache vs st).filter (fun v => jsTruthy v.consequence)).length ∧
    ((consequenceBase cache vs st).filter (fun v => jsTruthy v.consequence)).length
      ≤ (consequenceBase cache vs st).length := by
  refine ⟨?_, ?_, ?_, ?_, ?_, ?_⟩
  · simp only [typeCounts]
    have hall : "All" ∉ akeys ((typeBase cache vs st).foldl (fun m v => rincr m v.type) []) := by
      intro hmem
      rcases mem_akeys_foldl_rincr Variant.type _ _ _ hmem with h | ⟨v, hv, hvt⟩
      · simp [akeys] at h
      · exact hT v hv hvt
    rw [rsumConcrete_aset_all _ _ hall, rsum_foldl_rincr]
    simp [rsum]
  · simp only [qualityCounts]
    have hall : "All" ∉ akeys
        ((qualityBase cache vs st).foldl (fun m v => rincr m (qualityKeyOf v)) []) := by
      intro hmem
      rcases mem_akeys_foldl_rincr qualityKeyOf _ _ _ hmem with h | ⟨v, hv, hvt⟩
      · simp [akeys] at h
      · exact hQ v hv hvt
    rw [rsumConcrete_aset_all _ _ hall, rsum_foldl_rincr]
    simp [rsum]
  · simp only [patientCounts]
    have hall : "All" ∉ akeys ((patientBase cache vs st).foldl
        (fun m v => (getInvolvedPatients v).foldl (fun m' p => rincr m' p) m) []) := by
      intro hmem
      rcases mem_akeys_foldl_patient getInvolvedPatients _ _ _ hmem with h | ⟨v, hv, hvp⟩
      · simp [akeys] at h
      · exact hP v hv hvp
    rw [rsumConcrete_aset_all _ _ hall, rsum_foldl_patient]
    simp [rsum]
  · have hgen : ∀ l : List Variant,
        l.length ≤ (l.map (fun v => (getInvolvedPatients v).length)).sum := by
      intro l
      induction l with
      | nil => simp
      | cons v t ih =>
        simp only [List.length_cons, List.map_cons, List.sum_cons]
        have := getInvolvedPatients_length_pos v
        omega
    exact hgen _
  · simp only [consequenceCounts]
    have hall : "All" ∉ akeys ((consequenceBase cache vs st).foldl
        (fun m v =>
          match v.consequence with
          | some c => if c = "" then m else rincr m c
          | none => m) []) := by
      intro hmem
      rcases mem_akeys_foldl_consequence _ _ _ hmem with h | ⟨v, hv, hvc⟩
      · simp [akeys] at h
      · exact hC v hv hvc
    rw [rsumConcrete_aset_all _ _ hall, rsum_foldl_consequence]
    simp [rsum]
  · exact List.length_filter_le _ _

/-- A record with a companion in another patient and a truthy consequence. -/
def c1v1 : Variant :=
  .mk 100 "A" "G" "SNV" "P1" (some "PASS") (some "missense") .nofield
    (some [.mk 100 "A" "G" "SNV" "P2" none none .nofield none])

/-- A record with no companions and no consequence. -/
def c1v2 : Variant := .mk 200 "C" "T" "Indel" "P3" none none .nofield none

/-- Concrete variant list for the C1 analysis. -/
def c1vs : List Variant := [c1v1, c1v2]

/-- The neutral filter state. -/
def c1st : FilterState := ⟨"", "All", "All", "All", "All"⟩

/-- C1 witness: the amended statement evaluated at a concrete input. -/
theorem facetCounts_leave_one_out_witness :
    (∀ v ∈ typeBase [] c1vs c1st, v.type ≠ "All") ∧
    rsumConcrete (typeCounts [] c1vs c1st) = (typeBase [] c1vs c1st).length :=
  ⟨by decide,
   (facetCounts_leave_one_out [] c1vs c1st (by decide) (by decide) (by decide) (by decide)).1⟩

/-- C1 counterexample: as stated, the claim is false — at this concrete
input the patient counts sum to 3 over a base of 2 records (fan-out through a
companion), and the consequence counts sum to 1 over the same base of 2
(records lacking a consequence are not counted). -/
theorem facetCounts_not_partition :
    rsumConcrete (patientCounts [] c1vs c1st) ≠ (patientBase [] c1vs c1st).length ∧
    rsumConcrete (consequenceCounts [] c1vs c1st) ≠ (consequenceBase [] c1vs c1st).length := by
  decide

/-! ### Claim C10: involved patients -/

theorem alookup_rincr (m : List (String × Nat)) (k p : String) :
    alookup (rincr m k) p = if k = p then some ((alookup m k).getD 0 + 1) else alookup m p :=
  alookup_aset m k p _

theorem alookup_foldl_rincr_count (ps : List String) (m0 : List (String × Nat)) (p : String) :
    (alookup (ps.foldl (fun m q => rincr m q) m0) p).getD 0
      = (alookup m0 p).getD 0 + ps.count p := by
  induction ps generalizing m0 with
  | nil => simp
  | cons q t ih =>
    simp only [List.foldl_cons]
    rw [ih]
    by_cases hq : q = p
    · subst hq
      rw [alookup_rincr, if_pos rfl]
      simp only [List.count_cons, Option.getD_some, beq_self_eq_true, if_true]
      omega
    · rw [alookup_rincr, if_neg hq]
      simp [List.count_cons, hq]

/-- C10.  `getInvolvedPatients` returns the deduplicated,
lexicographically sorted set consisting of the record's own patient and all
companion patients; consequently a single record contributes at most 1 to any
one patient's count in `patientCounts`, even when companions repeat a
patient. -/
theorem getInvolvedPatients_spec (cache : HgvsCache) (st : FilterState) (v : Variant) :
    (getInvolvedPatients v).Sorted (· ≤ ·) ∧
    (getInvolvedPatients v).Nodup ∧
    (∀ p, p ∈ getInvolvedPatients v ↔
      p = v.patient ∨ ∃ c ∈ v.polymorphism.getD [], c.patient = p) ∧
    (∀ p, p ≠ "All" → (alookup (patientCounts cache [v] st) p).getD 0 ≤ 1) := by
  refine ⟨getInvolvedPatients_sorted v, getInvolvedPatients_nodup v,
    fun p => mem_getInvolvedPatients v p, fun p hp => ?_⟩
  simp only [patientCounts]
  rw [alookup_aset, if_neg (fun h => hp h.symm)]
  have hsub : (patientBase cache [v] st).Sublist [v] := applyFilters_sublist _ _ _ _
  rcases List.sublist_singleton.mp hsub with hb | hb
  · rw [hb]
    simp [alookup]
  · rw [hb]
    simp only [List.foldl_cons, List.foldl_nil]
    rw [alookup_foldl_rincr_count]
    have hcount : (getInvolvedPatients v).count p ≤ 1 :=
      List.nodup_iff_count_le_one.mp (getInvolvedPatients_nodup v) p
    simp only [alookup, Option.getD_none]
    omega

/-- A record whose companions repeat patient `P1`. -/
def c10v : Variant :=
  .mk 300 "G" "C" "SNV" "P1" none none .nofield
    (some [.mk 300 "G" "C" "SNV" "P1" none none .nofield none,
           .mk 300 "G" "C" "SNV" "P2" none none .nofield none])

/-- C10 witness: the per-patient contribution bound evaluated at a
concrete record with a duplicated companion patient. -/
theorem getInvolvedPatients_spec_witness :
    ("P1" : String) ≠ "All" ∧ (alookup (patientCounts [] [c10v] c1st) "P1").getD 0 ≤ 1 :=
  ⟨by decide, (getInvolvedPatients_spec [] c1st c10v).2.2.2 "P1" (by decide)⟩

/-! ### Inert and keep lemmas for the filter stages -/

theorem jsToLower_All : jsToLower "All" = "all" := by decide

theorem jsNorm_empty : jsTrim (jsToLower "") = "" := by decide

theorem qualityStage_all (l : List Variant) : qualityStage "All" l = l := by
  unfold qualityStage
  rw [if_neg (fun h => h rfl)]

theorem typeStage_all (l : List Variant) : typeStage "all" l = l := by
  unfold typeStage
  rw [if_neg (fun h => h rfl)]

theorem patientStage_all (l : List Variant) : patientStage "All" l = l := by
  unfold patientStage
  rw [if_neg (fun h => h rfl)]

theorem consequenceStage_all (l : List Variant) : consequenceStage "All" l = l := by
  unfold consequenceStage
  rw [if_neg (fun h => h rfl)]

theorem searchStage_empty (cache : HgvsCache) (l : List Variant) :
    searchStage cache "" l = l := by
  unfold searchStage
  rw [if_neg (fun h => h rfl)]

theorem qualityStage_keep (q : String) (v : Variant)
    (h : q = "All" ∨ qualityKeep q v = true) : qualityStage q [v] = [v] := by
  rcases h with h | h
  · rw [h, qualityStage_all]
  · unfold qualityStage
    split
    · rw [List.filter_singleton, h]
      rfl
    · rfl

theorem typeStage_keep (tl : String) (v : Variant)
    (h : tl = "all" ∨ typeKeep tl v = true) : typeStage tl [v] = [v] := by
  rcases h with h | h
  · rw [h, typeStage_all]
  · unfold typeStage
    split
    · rw [List.filter_singleton, h]
      rfl
    · rfl

theorem patientStage_keep (p : String) (v : Variant)
    (h : p = "All" ∨ patientKeep p v = true) : patientStage p [v] = [v] := by
  rcases h with h | h
  · rw [h, patientStage_all]
  · unfold patientStage
    split
    · rw [List.filter_singleton, h]
      rfl
    · rfl

theorem consequenceStage_keep (c : String) (v : Variant)
    (h : c = "All" ∨ consequenceKeep c v = true) : consequenceStage c [v] = [v] := by
  rcases h with h | h
  · rw [h, consequenceStage_all]
  · unfold consequenceStage
    split
    · rw [List.filter_singleton, h]
      rfl
    · rfl

theorem searchStage_keep (cache : HgvsCache) (s : String) (v : Variant)
    (h : s = "" ∨ searchMatches cache s v = true) : searchStage cache s [v] = [v] := by
  rcases h with h | h
  · rw [h, searchStage_empty]
  · unfold searchStage
    split
    · rw [List.filter_singleton, h]
      rfl
    · rfl

/-! ### Claim C9: identity on the neutral state, stable sublist always -/

/-- C9.  When every effective facet selection is `'All'` and the search
string normalizes (lowercase, trim) to empty, `applyFilters` returns the input
list unchanged; and for every state and override the output is a sublist of
the input, preserving relative order. -/
theorem applyFilters_identity_sublist (cache : HgvsCache) (vs : List Variant)
    (st : FilterState) (ov : Overrides) :
    ((ov.type.getD st.filterType = "All") → (ov.patient.getD st.filterPatient = "All") →
     (ov.quality.getD st.filterQuality = "All") →
     (ov.consequence.getD st.filterConsequence = "All") →
     (jsTrim (jsToLower st.searchTerm) = "") →
     applyFilters cache vs st ov = vs) ∧
    (applyFilters cache vs st ov).Sublist vs := by
  refine ⟨fun h1 h2 h3 h4 h5 => ?_, applyFilters_sublist cache vs st ov⟩
  simp only [applyFilters]
  rw [h1, h2, h3, h4, h5, jsToLower_All, qualityStage_all, typeStage_all,
    patientStage_all, consequenceStage_all, searchStage_empty]

/-- C9 witness: the identity conclusion at a concrete all-`'All'` state. -/
theorem applyFilters_identity_sublist_witness :
    applyFilters [] c1vs c1st Overrides.noov = c1vs :=
  (applyFilters_identity_sublist [] c1vs c1st Overrides.noov).1 rfl rfl rfl rfl (by decide)

/-! ### Claim C6: the quality stage -/

/-- C6.  Under any concrete (non-`'All'`) quality selection, a record with
no quality flag passes the quality stage of `applyFilters`, and a record with
a (truthy) flag passes exactly when the flag equals the selection. -/
theorem qualityFilter_spec (cache : HgvsCache) (v : Variant) (sel : String)
    (hsel : sel ≠ "All") :
    (v.filter = none →
      applyFilters cache [v] ⟨"", "All", "All", sel, "All"⟩ Overrides.noov = [v]) ∧
    (∀ f, f ≠ "" → v.filter = some f →
      (applyFilters cache [v] ⟨"", "All", "All", sel, "All"⟩ Overrides.noov = [v] ↔
        f = sel)) := by
  have hred : applyFilters cache [v] ⟨"", "All", "All", sel, "All"⟩ Overrides.noov
      = qualityStage sel [v] := by
    simp only [applyFilters, Overrides.noov, Option.getD_none]
    rw [jsNorm_empty, jsToLower_All]
    rw [typeStage_all, patientStage_all, consequenceStage_all, searchStage_empty]
  constructor
  · intro hf
    rw [hred]
    apply qualityStage_keep
    right
    unfold qualityKeep
    rw [hf]
  · intro f hf hvf
    rw [hred]
    constructor
    · intro h
      by_contra hne
      have hkeep : qualityKeep sel v = false := by
        unfold qualityKeep
        rw [hvf]
        simp only [if_neg hf]
        simpa using hne
      unfold qualityStage at h
      rw [if_pos hsel, List.filter_singleton, hkeep] at h
      exact absurd h (by simp)
    · intro h
      subst h
      apply qualityStage_keep
      right
      unfold qualityKeep
      rw [hvf]
      simp [hf]

/-- A record carrying the `PASS` quality flag. -/
def c6v : Variant := .mk 400 "T" "A" "SNV" "P1" (some "PASS") none .nofield none

/-- C6 witness: a flagged record under the matching concrete selection. -/
theorem qualityFilter_spec_witness :
    ("PASS" : String) ≠ "All" ∧
    (applyFilters [] [c6v] ⟨"", "All", "All", "PASS", "All"⟩ Overrides.noov = [c6v] ↔
      "PASS" = "PASS") :=
  ⟨by decide, (qualityFilter_spec [] c6v "PASS" (by decide)).2 "PASS" (by decide) rfl⟩

/-! ### Claim C7: the search stage -/

/-- C7.  For a non-empty normalized query, the search stage keeps a record
iff one of the four case-folded projections contains the query: the
`ref+position+alt` concatenation, the decimal position, an involved patient
identifier, or a resolved HGVS string (`getHgvs`, which prefers cached
alternatives over the raw field). -/
theorem searchFilter_spec (cache : HgvsCache) (v : Variant) (q : String)
    (hq : jsTrim (jsToLower q) ≠ "") :
    (applyFilters cache [v] ⟨q, "All", "All", "All", "All"⟩ Overrides.noov
      = if searchMatches cache (jsTrim (jsToLower q)) v then [v] else []) ∧
    (searchMatches cache (jsTrim (jsToLower q)) v = true ↔
      (jsIncludes (jsToLower (v.ref ++ toString v.position ++ v.alt))
          (jsTrim (jsToLower q)) = true ∨
       jsIncludes (toString v.position) (jsTrim (jsToLower q)) = true ∨
       (∃ p ∈ getInvolvedPatients v, jsIncludes (jsToLower p) (jsTrim (jsToLower q)) = true) ∨
       (∃ h ∈ getHgvs cache v, jsIncludes (jsToLower h) (jsTrim (jsToLower q)) = true))) := by
  constructor
  · simp only [applyFilters, Overrides.noov, Option.getD_none]
    rw [jsToLower_All]
    rw [qualityStage_all, typeStage_all, patientStage_all, consequenceStage_all]
    unfold searchStage
    rw [if_pos hq, List.filter_singleton]
    rw [Bool.cond_eq_ite]
  · unfold searchMatches
    simp only [Bool.or_eq_true, List.any_eq_true, List.mem_map]
    constructor
    · rintro (((h | h) | ⟨p, ⟨p', hp', rfl⟩, hmat⟩) | ⟨h, ⟨h', hh', rfl⟩, hmat⟩)
      · exact Or.inl h
      · exact Or.inr (Or.inl h)
      · exact Or.inr (Or.inr (Or.inl ⟨p', hp', hmat⟩))
      · exact Or.inr (Or.inr (Or.inr ⟨h', hh', hmat⟩))
    · rintro (h | h | ⟨p, hp, hmat⟩ | ⟨h, hh, hmat⟩)
      · exact Or.inl (Or.inl (Or.inl h))
      · exact Or.inl (Or.inl (Or.inr h))
      · exact Or.inl (Or.inr ⟨jsToLower p, ⟨p, hp, rfl⟩, hmat⟩)
      · exact Or.inr ⟨jsToLower h, ⟨h, hh, rfl⟩, hmat⟩

/-- The record of the cached-alternative search scenario: raw `hgvs` absent,
alternatives present in the cache under the position key. -/
def c7v : Variant := .mk 100 "A" "G" "SNV" "P1" none none .nofield none

/-- Cache entry holding an alternative name for `c7v` under its position
key. -/
def c7cache : HgvsCache := [("100", ⟨false, false, ["HGVS:NM_001.5:c.1A>G"]⟩)]

/-- C7 witness: the scenario query `"hgvs:nm_001"` against the
cached-alternative record. -/
theorem searchFilter_spec_witness :
    jsTrim (jsToLower "hgvs:nm_001") ≠ "" ∧
    applyFilters c7cache [c7v] ⟨"hgvs:nm_001", "All", "All", "All", "All"⟩ Overrides.noov
      = if searchMatches c7cache (jsTrim (jsToLower "hgvs:nm_001")) c7v then [c7v] else [] :=
  ⟨by decide, (searchFilter_spec c7cache c7v "hgvs:nm_001" (by decide)).1⟩

/-! ### Claim C2: the annotation cache key -/

/-- The usable primary of the *raw* `hgvs` field: the first array entry, or
the string itself when its trim is non-blank; `none` when the key derivation
falls back to the position. -/
def rawPrimary : HgvsField → Option String
  | .arr (h :: _) => some h
  | .arr [] => none
  | .str s => if jsTrim s = "" then none else some s
  | .nofield => none

theorem getHgvsKey_eq_rawPrimary (v : Variant) :
    getHgvsKey v = (rawPrimary v.hgvs).getD (toString v.position) := by
  rcases v with ⟨pos, ref, alt, ty, pat, fl, cs, hg, poly⟩
  rcases hg with _ | s | l
  · rfl
  · simp only [getHgvsKey, rawPrimary, Variant.hgvs, Variant.position]
    by_cases hs : jsTrim s = "" <;> simp [hs]
  · rcases l with _ | ⟨h, t⟩
    · rfl
    · rfl

/-- C2 (amended).  The annotation cache key is derived from the *raw*
`hgvs` field, not from the resolved sequence of `getHgvs`: it is the first
entry of the raw array, the raw string itself when its trim is non-blank, and
the decimal position otherwise; consequently any two records with the same raw
`hgvs` field and a usable raw primary share a cache key. -/
theorem getHgvsKey_raw (v : Variant) :
    getHgvsKey v = (rawPrimary v.hgvs).getD (toString v.position) ∧
    (∀ w : Variant, v.hgvs = w.hgvs → (rawPrimary v.hgvs).isSome = true →
      getHgvsKey v = getHgvsKey w) := by
  refine ⟨getHgvsKey_eq_rawPrimary v, fun w hw hsome => ?_⟩
  rw [getHgvsKey_eq_rawPrimary v, getHgvsKey_eq_rawPrimary w, ← hw]
  rcases hx : rawPrimary v.hgvs with _ | x
  · rw [hx] at hsome
    exact absurd hsome (by simp)
  · rfl

/-- A record with no raw `hgvs`, resolved through the cache. -/
def c2vA : Variant := .mk 100 "A" "G" "SNV" "P1" none none .nofield none

/-- A record whose raw `hgvs` equals `c2vA`'s cached alternative. -/
def c2vB : Variant := .mk 200 "C" "T" "SNV" "P2" none none (.str "NM_1:c.5A>G") none

/-- Cache holding an alternative for `c2vA` under its position key. -/
def c2cache : HgvsCache := [("100", ⟨false, false, ["NM_1:c.5A>G"]⟩)]

/-- A second record sharing `c2vB`'s raw `hgvs` field. -/
def c2vC : Variant := .mk 300 "G" "A" "Indel" "P3" none none (.str "NM_1:c.5A>G") none

/-- C2 counterexample: two records whose *resolved* sequences coincide and
are non-empty, yet whose cache keys differ — and the key of the first is not
the head of its resolved sequence, refuting the claim as stated. -/
theorem getHgvsKey_not_resolved :
    getHgvs c2cache c2vA = getHgvs c2cache c2vB ∧
    getHgvs c2cache c2vA ≠ [] ∧
    getHgvsKey c2vA ≠ (getHgvs c2cache c2vA).headD "" ∧
    getHgvsKey c2vA ≠ getHgvsKey c2vB := by
  refine ⟨rfl, by decide, by decide, by decide⟩

/-- C2 witness: two distinct records sharing a usable raw `hgvs` share a
key. -/
theorem getHgvsKey_raw_witness :
    c2vB.hgvs = c2vC.hgvs ∧ (rawPrimary c2vB.hgvs).isSome = true ∧
    getHgvsKey c2vB = getHgvsKey c2vC :=
  ⟨rfl, by decide, (getHgvsKey_raw c2vB).2 c2vC rfl (by decide)⟩

/-! ### Claim C3: visibility reconciliation -/

theorem searchConflict_iff (cache : HgvsCache) (st : FilterState) (v : Variant) :
    searchConflict cache st v = true ↔
      (jsTrim (jsToLower st.searchTerm) ≠ "" ∧
       searchMatches cache (jsTrim (jsToLower st.searchTerm)) v = false) := by
  unfold searchConflict
  simp [Bool.and_eq_true, bne_iff_ne]

theorem typeConflict_iff (st : FilterState) (v : Variant)
    (hty : st.filterType = "All" ∨ jsToLower st.filterType ≠ "all") :
    typeConflict st v = true ↔
      (jsToLower st.filterType ≠ "all" ∧ typeKeep (jsToLower st.filterType) v = false) := by
  unfold typeConflict typeKeep
  rcases hty with h | h
  · rw [h, jsToLower_All]
    simp
  · simp only [Bool.and_eq_true, bne_iff_ne, ne_eq, beq_eq_false_iff_ne]
    constructor
    · rintro ⟨h1, h2⟩
      exact ⟨h, fun he => h2 he.symm⟩
    · rintro ⟨h1, h2⟩
      have hne : ¬ st.filterType = "All" := fun he => by
        rw [he, jsToLower_All] at h
        exact h rfl
      exact ⟨hne, fun he => h2 he.symm⟩

theorem patientConflict_iff (st : FilterState) (v : Variant) :
    patientConflict st v = true ↔
      (st.filterPatient ≠ "All" ∧ patientKeep st.filterPatient v = false) := by
  unfold patientConflict
  rw [contains_getInvolvedPatients]
  simp [Bool.and_eq_true, bne_iff_ne]

theorem qualityConflict_iff (st : FilterState) (v : Variant) :
    qualityConflict st v = true ↔
      (st.filterQuality ≠ "All" ∧ qualityKeep st.filterQuality v = false) := by
  unfold qualityConflict qualityKeep
  rcases hf : v.filter with _ | f
  · simp
  · by_cases hf0 : f = ""
    · subst hf0
      simp
    · simp [hf0, Bool.and_eq_true, bne_iff_ne]

theorem consequenceConflict_iff (st : FilterState) (v : Variant) :
    consequenceConflict st v = true ↔
      (st.filterConsequence ≠ "All" ∧ consequenceKeep st.filterConsequence v = false) := by
  unfold consequenceConflict consequenceKeep
  simp [Bool.and_eq_true, bne_iff_ne, beq_eq_false_iff_ne]

theorem ite_reset_ok (b : Bool) (sel neutral : String) (keep : String → Bool)
    (hiff : b = true ↔ (sel ≠ neutral ∧ keep sel = false)) :
    (if b then neutral else sel) = neutral ∨ keep (if b then neutral else sel) = true := by
  rcases hb : b
  · subst hb
    simp only [Bool.false_eq_true, if_false]
    have hnp : ¬(sel ≠ neutral ∧ keep sel = false) := fun hp => Bool.false_ne_true (hiff.mpr hp)
    by_cases hA : sel = neutral
    · exact Or.inl hA
    · right
      rcases hk : keep sel
      · exact absurd ⟨hA, hk⟩ hnp
      · rfl
  · subst hb
    simp

theorem applyFilters_singleton_keep (cache : HgvsCache) (st : FilterState) (v : Variant)
    (h1 : st.filterQuality = "All" ∨ qualityKeep st.filterQuality v = true)
    (h2 : jsToLower st.filterType = "all" ∨ typeKeep (jsToLower st.filterType) v = true)
    (h3 : st.filterPatient = "All" ∨ patientKeep st.filterPatient v = true)
    (h4 : st.filterConsequence = "All" ∨ consequenceKeep st.filterConsequence v = true)
    (h5 : jsTrim (jsToLower st.searchTerm) = "" ∨
          searchMatches cache (jsTrim (jsToLower st.searchTerm)) v = true) :
    applyFilters cache [v] st Overrides.noov = [v] := by
  simp only [applyFilters, Overrides.noov, Option.getD_none]
  rw [qualityStage_keep _ v h1, typeStage_keep _ v h2, patientStage_keep _ v h3,
      consequenceStage_keep _ v h4, searchStage_keep cache _ v h5]

/-- C3 (amended).  After a call to `ensureVariantVisible` the record passes
`applyFilters` under the updated state — this holds for *every* live state.
Provided additionally that the live type selection is not a case variant of
`'All'` other than the literal `'All'` itself, the call resets exactly the
dimensions whose `applyFilters` per-stage predicate excludes the record (each
to its neutral value), leaves the others unchanged, and returns `true` iff
some dimension was reset (`false` with no state change when the record
already passes every stage). -/
theorem ensureVariantVisible_spec (cache : HgvsCache) (st : FilterState) (v : Variant) :
    applyFilters cache [v] (ensureVariantVisible cache st v).1 Overrides.noov = [v] ∧
    ((st.filterType = "All" ∨ jsToLower st.filterType ≠ "all") →
      ((ensureVariantVisible cache st v).1.searchTerm
          = if jsTrim (jsToLower st.searchTerm) ≠ "" ∧
               searchMatches cache (jsTrim (jsToLower st.searchTerm)) v = false
            then "" else st.searchTerm) ∧
      ((ensureVariantVisible cache st v).1.filterType
          = if jsToLower st.filterType ≠ "all" ∧ typeKeep (jsToLower st.filterType) v = false
            then "All" else st.filterType) ∧
      ((ensureVariantVisible cache st v).1.filterPatient
          = if st.filterPatient ≠ "All" ∧ patientKeep st.filterPatient v = false
            then "All" else st.filterPatient) ∧
      ((ensureVariantVisible cache st v).1.filterQuality
          = if st.filterQuality ≠ "All" ∧ qualityKeep st.filterQuality v = false
            then "All" else st.filterQuality) ∧
      ((ensureVariantVisible cache st v).1.filterConsequence
          = if st.filterConsequence ≠ "All" ∧ consequenceKeep st.filterConsequence v = false
            then "All" else st.filterConsequence) ∧
      ((ensureVariantVisible cache st v).2 = true ↔
        ((jsTrim (jsToLower st.searchTerm) ≠ "" ∧
            searchMatches cache (jsTrim (jsToLower st.searchTerm)) v = false) ∨
         (jsToLower st.filterType ≠ "all" ∧ typeKeep (jsToLower st.filterType) v = false) ∨
         (st.filterPatient ≠ "All" ∧ patientKeep st.filterPatient v = false) ∨
         (st.filterQuality ≠ "All" ∧ qualityKeep st.filterQuality v = false) ∨
         (st.filterConsequence ≠ "All" ∧ consequenceKeep st.filterConsequence v = false))) ∧
      ((ensureVariantVisible cache st v).2 = false →
        (ensureVariantVisible cache st v).1 = st)) := by
  have Ls := searchConflict_iff cache st v
  have Lp := patientConflict_iff st v
  have Lq := qualityConflict_iff st v
  have Lc := consequenceConflict_iff st v
  constructor
  case right =>
    intro hty
    have Lt := typeConflict_iff st v hty
    refine ⟨?_, ?_, ?_, ?_, ?_, ?_, ?_⟩
    · simp only [ensureVariantVisible]
      exact if_congr Ls rfl rfl
    · simp only [ensureVariantVisible]
      exact if_congr Lt rfl rfl
    · simp only [ensureVariantVisible]
      exact if_congr Lp rfl rfl
    · simp only [ensureVariantVisible]
      exact if_congr Lq rfl rfl
    · simp only [ensureVariantVisible]
      exact if_congr Lc rfl rfl
    · simp only [ensureVariantVisible, Bool.or_eq_true]
      rw [Ls, Lt, Lp, Lq, Lc]
      simp only [or_assoc]
    · intro hch
      simp only [ensureVariantVisible] at hch
      simp only [Bool.or_eq_false_iff] at hch
      obtain ⟨⟨⟨⟨hs, ht⟩, hp⟩, hq2⟩, hc2⟩ := hch
      simp only [ensureVariantVisible, hs, ht, hp, hq2, hc2, Bool.false_eq_true, if_false]
  case left =>
    refine applyFilters_singleton_keep cache _ v ?_ ?_ ?_ ?_ ?_
    · show (if qualityConflict st v then "All" else st.filterQuality) = "All" ∨
        qualityKeep (if qualityConflict st v then "All" else st.filterQuality) v = true
      exact ite_reset_ok _ _ _ (fun q => qualityKeep q v) Lq
    · show jsToLower (if typeConflict st v then "All" else st.filterType) = "all" ∨
        typeKeep (jsToLower (if typeConflict st v then "All" else st.filterType)) v = true
      rcases hb : typeConflict st v
      · simp only [Bool.false_eq_true, if_false]
        unfold typeConflict at hb
        rcases hfa : (st.filterType != "All") with _ | _
        · have hA : st.filterType = "All" := by simpa using hfa
          rw [hA, jsToLower_All]
          exact Or.inl rfl
        · rw [hfa, Bool.true_and] at hb
          have heq : jsToLower st.filterType = jsToLower v.type := by simpa using hb
          right
          unfold typeKeep
          rw [← heq]
          simp
      · simp only [if_true]
        rw [jsToLower_All]
        exact Or.inl rfl
    · show (if patientConflict st v then "All" else st.filterPatient) = "All" ∨
        patientKeep (if patientConflict st v then "All" else st.filterPatient) v = true
      exact ite_reset_ok _ _ _ (fun p => patientKeep p v) Lp
    · show (if consequenceConflict st v then "All" else st.filterConsequence) = "All" ∨
        consequenceKeep (if consequenceConflict st v then "All" else st.filterConsequence) v
          = true
      exact ite_reset_ok _ _ _ (fun c => consequenceKeep c v) Lc
    · show jsTrim (jsToLower (if searchConflict cache st v then "" else st.searchTerm)) = "" ∨
        searchMatches cache
          (jsTrim (jsToLower (if searchConflict cache st v then "" else st.searchTerm))) v
          = true
      rcases hb : searchConflict cache st v
      · simp only [Bool.false_eq_true, if_false]
        unfold searchConflict at hb
        have hb' : (jsTrim (jsToLower st.searchTerm) != "" &&
            !searchMatches cache (jsTrim (jsToLower st.searchTerm)) v) = false := hb
        rcases hn : (jsTrim (jsToLower st.searchTerm) != "") with _ | _
        · have : jsTrim (jsToLower st.searchTerm) = "" := by simpa using hn
          exact Or.inl this
        · rw [hn, Bool.true_and] at hb'
          have : searchMatches cache (jsTrim (jsToLower st.searchTerm)) v = true := by
            simpa using hb'
          exact Or.inr this
      · simp only [if_true]
        exact Or.inl jsNorm_empty

/-- The state whose type selection is the case variant `"ALL"`. -/
def c3st : FilterState := ⟨"", "ALL", "All", "All", "All"⟩

/-- A plain record used against `c3st`. -/
def c3v : Variant := .mk 500 "A" "T" "SNV" "P1" none none .nofield none

/-- C3 counterexample: with type selection `"ALL"` the record passes every
stage of `applyFilters` (the type stage is inert because the lowercased
selection is `"all"`), yet `ensureVariantVisible` reports a change and resets
the type dimension — refuting "returns true iff at least one excluding
dimension was reset". -/
theorem ensureVariantVisible_not_minimal :
    applyFilters [] [c3v] c3st Overrides.noov = [c3v] ∧
    (ensureVariantVisible [] c3st c3v).2 = true ∧
    (ensureVariantVisible [] c3st c3v).1 ≠ c3st :=
  ⟨rfl, by decide, by decide⟩

/-- C3 witness: the unconditional post-call pass, and the no-change
conclusion with the type-selection hypothesis discharged, at a concrete
state. -/
theorem ensureVariantVisible_spec_witness :
    applyFilters [] [c3v] (ensureVariantVisible [] c1st c3v).1 Overrides.noov = [c3v] ∧
    ((ensureVariantVisible [] c1st c3v).2 = false →
      (ensureVariantVisible [] c1st c3v).1 = c1st) :=
  ⟨(ensureVariantVisible_spec [] c1st c3v).1,
   ((ensureVariantVisible_spec [] c1st c3v).2 (Or.inl rfl)).2.2.2.2.2.2⟩

/-! ### Claims C8 and C4: the fetch state machine -/

theorem jsSplitCharAux_length_pos (c : Char) (l acc : List Char) :
    1 ≤ (jsSplitCharAux c l acc).length := by
  induction l generalizing acc with
  | nil => simp [jsSplitCharAux]
  | cons x xs ih =>
    simp only [jsSplitCharAux]
    by_cases hx : x = c
    · rw [if_pos hx]
      simp
    · rw [if_neg hx]
      exact ih _

theorem jsSplitCharAux_length_ge_two (c : Char) (l acc : List Char) :
    2 ≤ (jsSplitCharAux c l acc).length ↔ c ∈ l := by
  induction l generalizing acc with
  | nil => simp [jsSplitCharAux]
  | cons x xs ih =>
    simp only [jsSplitCharAux]
    by_cases hx : x = c
    · rw [if_pos hx]
      simp only [List.length_cons, List.mem_cons]
      constructor
      · intro _
        exact Or.inl hx.symm
      · intro _
        have := jsSplitCharAux_length_pos c xs []
        omega
    · rw [if_neg hx]
      rw [ih]
      simp only [List.mem_cons]
      constructor
      · exact fun h => Or.inr h
      · rintro (h | h)
        · exact absurd h.symm hx
        · exact h

theorem jsSplitChar_length_lt_two (c : Char) (s : String) :
    (jsSplitChar c s).length < 2 ↔ c ∉ s.toList := by
  unfold jsSplitChar
  rw [← jsSplitCharAux_length_ge_two c s.toList []]
  omega

/-- C8.  `fetchHgvsAlternatives` is a strict no-op (no lookup issued, no
cache change) when the resolved sequence has more than one entry, is empty, or
its primary contains no colon; otherwise the entry for the record's key is in
the pending state `{loading: true, error: false, alternatives: []}` at the
synchronous point before the asynchronous lookup is issued, and the lookup is
issued keyed by the transcript prefix, position, ref and alt. -/
theorem fetchHgvs_guards_pending (cache : HgvsCache) (v : Variant) (jobId : Option String)
    (lr : Except Unit (List String)) (pr : Except Unit Unit) :
    ((getHgvs cache v).length > 1 →
      fetchHgvsAlternatives cache v jobId lr pr = ⟨cache, cache, none⟩) ∧
    ((getHgvs cache v).length = 0 →
      fetchHgvsAlternatives cache v jobId lr pr = ⟨cache, cache, none⟩) ∧
    ((getHgvs cache v).length = 1 → ':' ∉ ((getHgvs cache v).headD "").toList →
      fetchHgvsAlternatives cache v jobId lr pr = ⟨cache, cache, none⟩) ∧
    ((getHgvs cache v).length = 1 → ':' ∈ ((getHgvs cache v).headD "").toList →
      (alookup (fetchHgvsAlternatives cache v jobId lr pr).preCache (getHgvsKey v)
          = some ⟨true, false, []⟩ ∧
       (fetchHgvsAlternatives cache v jobId lr pr).issued
          = some ((jsSplitChar ':' ((getHgvs cache v).headD "")).headD "",
                  v.position, v.ref, v.alt))) := by
  refine ⟨?_, ?_, ?_, ?_⟩
  · intro h
    simp only [fetchHgvsAlternatives]
    rw [if_pos h]
  · intro h
    simp only [fetchHgvsAlternatives]
    rw [if_neg (by omega), if_pos h]
  · intro h1 h2
    simp only [fetchHgvsAlternatives]
    rw [if_neg (by omega), if_neg (by omega),
      if_pos ((jsSplitChar_length_lt_two ':' _).mpr h2)]
  · intro h1 h2
    have hsplit : ¬ (jsSplitChar ':' ((getHgvs cache v).headD "")).length < 2 := by
      rw [jsSplitChar_length_lt_two]
      exact fun hn => hn h2
    simp only [fetchHgvsAlternatives]
    rw [if_neg (by omega), if_neg (by omega), if_neg hsplit]
    rcases lr with e | alts
    · constructor
      · rw [alookup_aset, if_pos rfl]
      · rfl
    · rcases jobId with _ | j
      · constructor
        · rw [alookup_aset, if_pos rfl]
        · rfl
      · rcases pr with e | u
        · constructor
          · rw [alookup_aset, if_pos rfl]
          · rfl
        · constructor
          · rw [alookup_aset, if_pos rfl]
          · rfl

/-- A record with a single colon-bearing raw HGVS string. -/
def c8v : Variant := .mk 150 "G" "T" "SNV" "P1" none none (.str "NM_3:c.2del") none

/-- C8 witness: the pending state at the synchronous point for a concrete
record. -/
theorem fetchHgvs_guards_pending_witness :
    (getHgvs [] c8v).length = 1 ∧ ':' ∈ ((getHgvs [] c8v).headD "").toList ∧
    alookup (fetchHgvsAlternatives [] c8v none (.ok []) (.ok ())).preCache (getHgvsKey c8v)
      = some ⟨true, false, []⟩ :=
  ⟨by decide, by decide,
   ((fetchHgvs_guards_pending [] c8v none (.ok []) (.ok ())).2.2.2 (by decide) (by decide)).1⟩

/-- C4 (amended).  When the guards pass and the lookup succeeds, the cache
entry ends in the success state only if persistence succeeds or no job id is
present; a persistence failure lands in the shared catch handler, which
*overwrites* the entry with `{loading: false, error: true, alternatives: []}` —
the success state is not retained. -/
theorem fetch_persist_failure (cache : HgvsCache) (v : Variant) (jId : String)
    (alts : List String)
    (hlen : (getHgvs cache v).length = 1)
    (hcolon : ':' ∈ ((getHgvs cache v).headD "").toList) :
    alookup (fetchHgvsAlternatives cache v (some jId) (.ok alts) (.error ())).finalCache
        (getHgvsKey v) = some ⟨false, true, []⟩ ∧
    alookup (fetchHgvsAlternatives cache v (some jId) (.ok alts) (.ok ())).finalCache
        (getHgvsKey v) = some ⟨false, false, alts⟩ ∧
    alookup (fetchHgvsAlternatives cache v none (.ok alts) (.error ())).finalCache
        (getHgvsKey v) = some ⟨false, false, alts⟩ := by
  have hsplit : ¬ (jsSplitChar ':' ((getHgvs cache v).headD "")).length < 2 := by
    rw [jsSplitChar_length_lt_two]
    exact fun hn => hn hcolon
  refine ⟨?_, ?_, ?_⟩ <;>
    · simp only [fetchHgvsAlternatives]
      rw [if_neg (by omega), if_neg (by omega), if_neg hsplit]
      simp [alookup_aset]

/-- The concrete record for the persistence-failure scenario. -/
def c4v : Variant := .mk 100 "A" "G" "SNV" "P1" none none (.str "NM_2:c.4del") none

/-- C4 counterexample: at a concrete input where the lookup succeeds and
the persistence call fails, the final cache entry is the error state, not the
already-applied success state the claim asserts. -/
theorem fetch_persist_failure_counterexample :
    alookup (fetchHgvsAlternatives [] c4v (some "job1") (.ok ["NM_9:g.1A>G"])
        (.error ())).finalCache (getHgvsKey c4v) = some ⟨false, true, []⟩ ∧
    (⟨false, true, []⟩ : HgvsState) ≠ ⟨false, false, ["NM_9:g.1A>G"]⟩ := by
  refine ⟨by decide, by decide⟩

/-- C4 witness: the amended statement at the concrete scenario input. -/
theorem fetch_persist_failure_witness :
    (getHgvs [] c4v).length = 1 ∧ ':' ∈ ((getHgvs [] c4v).headD "").toList ∧
    alookup (fetchHgvsAlternatives [] c4v (some "job1") (.ok ["NM_9:g.1A>G"])
        (.ok ())).finalCache (getHgvsKey c4v) = some ⟨false, false, ["NM_9:g.1A>G"]⟩ :=
  ⟨by decide, by decide,
   (fetch_persist_failure [] c4v "job1" ["NM_9:g.1A>G"] (by decide) (by decide)).2.1⟩

/-! ### Claim C5: the cache accumulates for the session -/

theorem fetch_finalCache_alookup_ne (cache : HgvsCache) (v : Variant)
    (jobId : Option String) (lr : Except Unit (List String)) (pr : Except Unit Unit)
    (k : String) (hk : k ≠ getHgvsKey v) :
    alookup (fetchHgvsAlternatives cache v jobId lr pr).finalCache k = alookup cache k := by
  have hne : ¬ (getHgvsKey v = k) := fun h => hk h.symm
  simp only [fetchHgvsAlternatives]
  split
  · rfl
  split
  · rfl
  split
  · rfl
  rcases lr with e | alts
  · simp [alookup_aset, hne]
  rcases jobId with _ | j
  · simp [alookup_aset, hne]
  rcases pr with e | u
  · simp [alookup_aset, hne]
  · simp [alookup_aset, hne]

theorem fetch_finalCache_isSome (cache : HgvsCache) (v : Variant)
    (jobId : Option String) (lr : Except Unit (List String)) (pr : Except Unit Unit)
    (k : String) (h : (alookup cache k).isSome = true) :
    (alookup (fetchHgvsAlternatives cache v jobId lr pr).finalCache k).isSome = true := by
  by_cases hk : k = getHgvsKey v
  · subst hk
    simp only [fetchHgvsAlternatives]
    split
    · exact h
    split
    · exact h
    split
    · exact h
    rcases lr with e | alts
    · simp [alookup_aset]
    rcases jobId with _ | j
    · simp [alookup_aset]
    rcases pr with e | u
    · simp [alookup_aset]
    · simp [alookup_aset]
  · rw [fetch_finalCache_alookup_ne cache v jobId lr pr k hk]
    exact h

theorem alookup_foldl_aset_ne (l : List (String × List String))
    (m0 : HgvsCache) (k : String) (h : ∀ e ∈ l, e.1 ≠ k) :
    alookup (l.foldl (fun m e => aset m e.1 ⟨false, false, e.2⟩) m0) k = alookup m0 k := by
  induction l generalizing m0 with
  | nil => rfl
  | cons e t ih =>
    simp only [List.foldl_cons]
    rw [ih _ (fun e' he' => h e' (List.mem_cons_of_mem _ he'))]
    rw [alookup_aset, if_neg (h e (List.mem_cons_self e t))]

theorem alookup_foldl_aset_of_mem (l : List (String × List String))
    (m0 : HgvsCache) (k : String) (alts : List String)
    (hnd : (l.map Prod.fst).Nodup) (hmem : (k, alts) ∈ l) :
    alookup (l.foldl (fun m e => aset m e.1 ⟨false, false, e.2⟩) m0) k
      = some ⟨false, false, alts⟩ := by
  induction l generalizing m0 with
  | nil => cases hmem
  | cons e t ih =>
    simp only [List.map_cons, List.nodup_cons] at hnd
    obtain ⟨hhd, hndt⟩ := hnd
    simp only [List.foldl_cons]
    rcases List.mem_cons.mp hmem with hm | hm
    · subst hm
      rw [alookup_foldl_aset_ne t _ k]
      · rw [alookup_aset, if_pos rfl]
      · intro e' he' he'k
        apply hhd
        have hmm : e'.1 ∈ t.map Prod.fst := List.mem_map_of_mem Prod.fst he'
        rw [he'k] at hmm
        exact hmm
    · exact ih _ hndt hm

theorem runOps_frame (ops : List SessionOp) (c : HgvsCache) (k : String)
    (h : ∀ op ∈ ops, SessionOp.key op ≠ k) :
    alookup (ops.foldl stepCache c) k = alookup c k := by
  induction ops generalizing c with
  | nil => rfl
  | cons op t ih =>
    simp only [List.foldl_cons]
    rw [ih _ (fun o ho => h o (List.mem_cons_of_mem _ ho))]
    rcases op with ⟨v, j, lr, pr⟩
    exact fetch_finalCache_alookup_ne c v j lr pr k
      (fun he => h _ (List.mem_cons_self _ t) he.symm)

theorem runOps_isSome (ops : List SessionOp) (c : HgvsCache) (k : String)
    (h : (alookup c k).isSome = true) :
    (alookup (ops.foldl stepCache c) k).isSome = true := by
  induction ops generalizing c with
  | nil => exact h
  | cons op t ih =>
    simp only [List.foldl_cons]
    rcases op with ⟨v, j, lr, pr⟩
    exact ih _ (fetch_finalCache_isSome c v j lr pr k h)

/-- C5.  A view session seeds the cache once from the persisted
alternatives (each persisted pair becomes a settled success entry), and
afterwards only a fetch targeting a key can touch that key's entry: a run of
fetch operations none of which target `k` leaves `k`'s entry exactly as
seeded, and an entry present after seeding is still present after any run of
operations — entries are never evicted within a session. -/
theorem cacheSession_spec (inputAlts : List (String × List String)) (ops : List SessionOp)
    (k : String) (hnd : (inputAlts.map Prod.fst).Nodup) :
    (∀ alts, (k, alts) ∈ inputAlts →
      alookup (seedCache inputAlts) k = some ⟨false, false, alts⟩) ∧
    ((∀ op ∈ ops, SessionOp.key op ≠ k) →
      alookup (runSession inputAlts ops) k = alookup (seedCache inputAlts) k) ∧
    ((alookup (seedCache inputAlts) k).isSome = true →
      (alookup (runSession inputAlts ops) k).isSome = true) := by
  refine ⟨fun alts hmem => ?_, fun h => ?_, fun h => ?_⟩
  · exact alookup_foldl_aset_of_mem inputAlts [] k alts hnd hmem
  · exact runOps_frame ops _ k h
  · exact runOps_isSome ops _ k h

/-- The persisted alternatives used in the C5 witness. -/
def c5alts : List (String × List String) := [("NM_1:c.5A>G", ["NM_1:c.5A>G", "NM_2:c.6del"])]

/-- A session consisting of one fetch of an unrelated record. -/
def c5ops : List SessionOp := [.fetch c2vA none (.ok ["X:1"]) (.ok ())]

/-- C5 witness: the seeding conclusion at a concrete persisted map. -/
theorem cacheSession_spec_witness :
    (c5alts.map Prod.fst).Nodup ∧
    alookup (seedCache c5alts) "NM_1:c.5A>G"
      = some ⟨false, false, ["NM_1:c.5A>G", "NM_2:c.6del"]⟩ :=
  ⟨by decide,
   (cacheSession_spec c5alts c5ops "NM_1:c.5A>G" (by decide)).1
     ["NM_1:c.5A>G", "NM_2:c.6del"] (by decide)⟩

end PSAnalyzer
